import Mathlib

/-!
Verification of the decision-tree evaluation analyzers in `utils/analysis.py`
(neural-backed decision trees).  The file embeds the data model and the two
tree-traversal inference strategies — deterministic "hard" routing
(`DecisionTreePrior`) and probabilistic "soft" routing
(`DecisionTreeBayesianPrior`) — as Lean definitions, together with the
epoch-checking evaluation hooks and the running accuracy counters, and proves
the stated properties about them.

Real-valued model scores are embedded as `ℝ`; batches are lists of rows
(one row per sample, one column per original class).  The per-sample `while`
loop of hard routing is embedded with an explicit fuel parameter; running out
of fuel is the `none` outcome.
-/

/-- One decision node of the label hierarchy (class `Node` from the external
`utils.data.custom` module), restricted to the fields the analysis code reads:
the node identifier `wnid`, the ordered list of child identifiers, the number
of node-local classes, and the mapping from each node-local class index to the
list of original-dataset class indices it owns. -/
structure Node where
  wnid : String
  children : List String
  num_classes : Nat
  new_to_old_classes : List (List Nat)
deriving DecidableEq

/-- Number of `True` entries of a boolean list; embeds Python's
`sum(selector)` on a list of booleans. -/
def countTrue (l : List Bool) : Nat := (l.filter (fun b => b)).length

/-- `analysis.py:215`: `index_new = sum(selector[:index + 1]) - 1`, the
position used to read this sample's node-local prediction. -/
def lockstepPos (selector : List Bool) (index : Nat) : Nat :=
  countTrue (selector.take (index + 1)) - 1

/-- Index of the first maximal element of a list of reals; embeds
`np.argmax` (axis 1, per row) and the index returned by `torch.max(·, dim=1)`. -/
noncomputable def argmaxList : List ℝ → Nat
  | [] => 0
  | x :: xs => if ∀ y ∈ xs, y ≤ x then 0 else argmaxList xs + 1

/-- Arithmetic mean of a list of reals; embeds `.mean(dim=0)` over the
selected rows of the transposed output matrix. -/
noncomputable def listMean (l : List ℝ) : ℝ := l.sum / l.length

/-- Row-wise softmax, `nn.Softmax(dim=1)` applied to one row. -/
noncomputable def softmaxRow (l : List ℝ) : List ℝ :=
  l.map (fun x => Real.exp x / (l.map Real.exp).sum)

/-- Python `dict` built from an association list (a later binding for the same
key overrides an earlier one) together with `.get(key, None)` lookup. -/
def dictGet {α : Type} (d : List (String × α)) (w : String) : Option α :=
  (d.reverse.find? (fun e => e.1 == w)).map (fun e => e.2)

/-- `analysis.py:171`: `self.wnid_to_node = {node.wnid: node for node in self.nodes}`,
used with `.get(wnid, None)`. -/
def wnidToNode (nodes : List Node) (w : String) : Option Node :=
  dictGet (nodes.map (fun nd => (nd.wnid, nd))) w

/-- `analysis.py:175`: `self.wnid_to_class = {wnid: cls for wnid, cls in zip(self.wnids, self.classes)}`,
used with `.get(wnid, None)`. -/
def wnidToClass (wnids classes : List String) (w : String) : Option String :=
  dictGet (wnids.zip classes) w

/-- `analysis.py:219-220`: `cls = self.wnid_to_class.get(wnid, None)`;
`pred = -1 if cls is None else self.classes.index(cls)`.  The final wnid of a
traversal may itself be absent (`none`), in which case the lookup yields no
class and the prediction is the sentinel `-1`. -/
def predOfWnid (w2c : String → Option String) (classes : List String) : Option String → Int
  | none => -1
  | some w =>
    match w2c w with
    | none => -1
    | some c => (classes.indexOf c : Int)

/-- The per-sample `while node is not None` loop of
`DecisionTreePrior.traverse_tree` (`analysis.py:207-218`), with explicit fuel.
State is the pair `(node, wnid)` exactly as in the source; the result is the
final value of `wnid` (`none` when the loop broke out after `wnid = node = None`),
and the outer `none` means the fuel ran out. -/
def travLoop (w2n : String → Option Node) (wps : String → Option (List Nat × List Bool))
    (index : Nat) : Nat → Option Node → Option String → Option (Option String)
  | _, none, w => some w
  | 0, some _, _ => none
  | fuel + 1, some node, _ =>
    match wps node.wnid with
    | none => some none
    | some ps =>
      if ps.2.getD index false = false then some none
      else
        let wnid' := node.children.getD (ps.1.getD (lockstepPos ps.2 index) 0) ""
        travLoop w2n wps index fuel (w2n wnid') (some wnid')

/-- One iteration of the `for index in range(n_samples)` loop of
`DecisionTreePrior.traverse_tree`: run the while-loop from the root and map the
final wnid to a prediction. -/
def samplePred (w2n : String → Option Node) (w2c : String → Option String)
    (classes : List String) (wps : String → Option (List Nat × List Bool))
    (wnid_root : String) (index fuel : Nat) : Option Int :=
  (travLoop w2n wps index fuel (w2n wnid_root) (some wnid_root)).map (predOfWnid w2c classes)

/-- Collect the per-sample results into one list, propagating fuel exhaustion. -/
def collectOpt (f : Nat → Option Int) : List Nat → Option (List Int)
  | [] => some []
  | i :: is =>
    match f i, collectOpt f is with
    | some v, some vs => some (v :: vs)
    | _, _ => none

/-- `DecisionTreePrior.traverse_tree` (`analysis.py:201-222`).  The first
argument (`_` in the source) is the driver's own `predicted` tensor and is
ignored.  `wnid_root` is the result of the external `get_root(self.G)`;
`node_root = self.wnid_to_node[wnid_root]` raises on a missing key, embedded
as the `none` result. -/
def DecisionTreePrior_traverse (w2n : String → Option Node) (w2c : String → Option String)
    (classes : List String) (_predicted : List Int)
    (wps : String → Option (List Nat × List Bool)) (wnid_root : String)
    (n_samples fuel : Nat) : Option (List Int) :=
  match w2n wnid_root with
  | none => none
  | some _ =>
    collectOpt (fun index => samplePred w2n w2c classes wps wnid_root index fuel)
      (List.range n_samples)

/-- The hard-routing state machine exactly as the specification words it: at
the current identifier, a missing node means the traversal has reached a leaf
and the result is the original-class index obtained from the wnid-to-class
lookup of that leaf identifier (`-1` when the lookup finds nothing); at an
internal node, a missing entry in the per-node decision data or a false
selector entry at this sample aborts to the unresolved sentinel `-1`;
otherwise the node-local argmax prediction for this sample selects a child and
the machine moves there.  Fuel exhaustion is `none`. -/
def specHardMachine (w2n : String → Option Node) (wps : String → Option (List Nat × List Bool))
    (w2c : String → Option String) (classes : List String) (index : Nat)
    (fuel : Nat) (w : String) : Option Int :=
  match w2n w with
  | none =>
    some (match w2c w with
          | none => -1
          | some c => (classes.indexOf c : Int))
  | some node =>
    match fuel with
    | 0 => none
    | fuel' + 1 =>
      match wps node.wnid with
      | none => some (-1)
      | some ps =>
        if ps.2.getD index false = false then some (-1)
        else
          specHardMachine w2n wps w2c classes index fuel'
            (node.children.getD (ps.1.getD (lockstepPos ps.2 index) 0) "")
termination_by fuel

/-- The batch indices marked applicable by a selector, in batch order; this is
the "local-predictions list holds exactly the applicable samples in batch
order" precondition of the lock-step property, written from the spec. -/
def applicableIdx : List Bool → List Nat
  | [] => []
  | b :: bs => (if b then [0] else []) ++ (applicableIdx bs).map (fun i => i + 1)

/-- Evaluation-hook state: `Noop.__init__` sets `self.epoch = None`
(`analysis.py:31`); `DecisionTreePrior.__init__` adds `self.correct = 0` and
`self.total = 0` (`analysis.py:177-178`). -/
structure PriorState where
  epoch : Option Int
  correct : Int
  total : Int
deriving DecidableEq

/-- The counter state right after `DecisionTreePrior.__init__` (and, by
inheritance, `DecisionTreeBayesianPrior.__init__`). -/
def DecisionTreePrior_init : PriorState := ⟨none, 0, 0⟩

/-- `assert epoch == self.epoch`: `none` embeds the raised `AssertionError`. -/
def assertEpoch (s : Option Int) (epoch : Int) : Option Unit :=
  if s = some epoch then some () else none

/-- `Noop.start_epoch` (`analysis.py:33-34`): records the epoch, no check. -/
def Noop_start_epoch (s : PriorState) (epoch : Int) : PriorState :=
  { s with epoch := some epoch }

/-- `Noop.start_train` (`analysis.py:36-37`). -/
def Noop_start_train (s : PriorState) (epoch : Int) : Option PriorState :=
  (assertEpoch s.epoch epoch).map (fun _ => s)

/-- `Noop.end_train` (`analysis.py:42-43`). -/
def Noop_end_train (s : PriorState) (epoch : Int) : Option PriorState :=
  (assertEpoch s.epoch epoch).map (fun _ => s)

/-- `Noop.start_test` (`analysis.py:45-46`): only the epoch assertion; it is
inherited unchanged by `DecisionTreePrior` and `DecisionTreeBayesianPrior`,
so it does not touch `correct`/`total`. -/
def Noop_start_test (s : PriorState) (epoch : Int) : Option PriorState :=
  (assertEpoch s.epoch epoch).map (fun _ => s)

/-- `Noop.end_test` (`analysis.py:48-49`). -/
def Noop_end_test (s : PriorState) (epoch : Int) : Option PriorState :=
  (assertEpoch s.epoch epoch).map (fun _ => s)

/-- `Noop.end_epoch` (`analysis.py:51-52`). -/
def Noop_end_epoch (s : PriorState) (epoch : Int) : Option PriorState :=
  (assertEpoch s.epoch epoch).map (fun _ => s)

/-- `DecisionTreeBayesianPrior.end_test` (`analysis.py:299-301`): it overrides
`Noop.end_test` without delegating to it, so it performs no epoch assertion.
Its first line, `accuracy = round(self.correct / self.total * 100., 2)`,
raises `ZeroDivisionError` when `self.total` is zero (embedded as `none`);
otherwise the method only computes and prints the accuracy string. -/
def DecisionTreeBayesianPrior_end_test (s : PriorState) (_epoch : Int) : Option PriorState :=
  if s.total = 0 then none else some s

/-- `(predicted == targets).sum().item()` for two equally indexed lists. -/
def countEq (predicted targets : List Int) : Nat :=
  ((predicted.zip targets).filter (fun pt => pt.1 == pt.2)).length

/-- The counter updates of `update_batch` (`analysis.py:196-197` and
`analysis.py:283-284`): `self.total += n_samples`;
`self.correct += (predicted == targets).sum().item()`. -/
def updateCounters (s : PriorState) (n_samples : Nat) (predicted targets : List Int) : PriorState :=
  { s with total := s.total + (n_samples : Int),
           correct := s.correct + (countEq predicted targets : Int) }

/-- Modelled from the spec: `TreeSup.inference` lives in the external
`models.trees` module and is not part of this repository's sources.  Per spec
§4.1, a sample is applicable to a node iff its ground-truth original class is
owned by one of the node's child groups; the sub-batch of node-local logits
and the sub-batch of targets contain exactly the applicable samples, in batch
order.  The node-local logits of one sample are obtained by the per-group
aggregation of the raw original-class scores. -/
noncomputable def TreeSup_inference (node : Node) (outputs : List (List ℝ)) (targets : List Nat) :
    List Bool × List (List ℝ) × List Nat :=
  let selector := targets.map (fun t => node.new_to_old_classes.any (fun ids => ids.contains t))
  let localOut := outputs.map (fun row =>
    (List.range node.num_classes).map
      (fun new_label =>
        listMean ((node.new_to_old_classes.getD new_label []).map (fun i => row.getD i 0))))
  (selector,
   ((selector.zip localOut).filter (fun z => z.1)).map (fun z => z.2),
   ((selector.zip targets).filter (fun z => z.1)).map (fun z => z.2))

/-- The `wnid_to_pred_selector` construction of `DecisionTreePrior.update_batch`
(`analysis.py:184-191`): per node, run the inference adapter; skip the node if
no selector entry is true; otherwise record the per-row argmax predictions of
the sub-batch together with the selector, keyed by the node's wnid. -/
noncomputable def DecisionTreePrior_update_wps (nodes : List Node) (outputs : List (List ℝ))
    (targets : List Nat) : List (String × (List Nat × List Bool)) :=
  nodes.foldl
    (fun acc node =>
      let r := TreeSup_inference node outputs targets
      if r.1.any (fun b => b) then acc ++ [(node.wnid, (r.2.1.map argmaxList, r.1))]
      else acc)
    []

/-- The per-node output of `DecisionTreeBayesianPrior.update_batch`
(`analysis.py:274-277`): for every sample (no applicability gating) and every
node-local class, the mean of the raw output columns listed in
`node.new_to_old_classes` for that class. -/
noncomputable def nodeOutput (node : Node) (outputs : List (List ℝ)) : List (List ℝ) :=
  outputs.map (fun row =>
    (List.range node.num_classes).map
      (fun new_label =>
        listMean ((node.new_to_old_classes.getD new_label []).map (fun i => row.getD i 0))))

/-- `class_probs[:,old_indexes] *= output[:,index_child:index_child+1]`
(`analysis.py:295`) on one sample's probability row: multiply the entries at
the owned original-class indices by the child's probability. -/
noncomputable def childUpdate (old_indexes : List Nat) (p : ℝ) (row : List ℝ) : List ℝ :=
  row.mapIdx (fun c x => if c ∈ old_indexes then x * p else x)

/-- The per-node body of `DecisionTreeBayesianPrior.traverse_tree`
(`analysis.py:291-295`) on one sample's probability row: softmax-normalize the
node-local output row and fold the per-child multiplicative updates. -/
noncomputable def nodeUpdateRow (node : Node) (outRow : List ℝ) (row : List ℝ) : List ℝ :=
  (List.range node.children.length).foldl
    (fun r index_child =>
      childUpdate (node.new_to_old_classes.getD index_child [])
        ((softmaxRow outRow).getD index_child 0) r)
    row

/-- `DecisionTreeBayesianPrior.traverse_tree` (`analysis.py:288-297`):
initialize an all-ones samples×classes probability matrix, apply every node's
multiplicative update, and return the per-row argmax. -/
noncomputable def DecisionTreeBayesianPrior_traverse (nodes : List Node) (classes : List String)
    (wnid_to_output : List (String × List (List ℝ))) (n_samples : Nat) : List Int :=
  let class_probs := nodes.foldl
    (fun probs node =>
      let output := (dictGet wnid_to_output node.wnid).getD []
      probs.mapIdx (fun s row => nodeUpdateRow node (output.getD s []) row))
    (List.replicate n_samples (List.replicate classes.length (1 : ℝ)))
  class_probs.map (fun row => (argmaxList row : Int))

/-- `DecisionTreeBayesianPrior.update_batch` (`analysis.py:271-282`) up to the
point where `predicted` is recomputed: build `wnid_to_output` and traverse. -/
noncomputable def DecisionTreeBayesianPrior_update_batch_preds (nodes : List Node)
    (classes : List String) (outputs : List (List ℝ)) : List Int :=
  DecisionTreeBayesianPrior_traverse nodes classes
    (nodes.map (fun node => (node.wnid, nodeOutput node outputs))) outputs.length

/-- Written from the specification's words: the node-local output vector of one
sample is obtained "by averaging the raw original-class scores within each
child-group over the indices that group owns". -/
noncomputable def specLocalOutput (node : Node) (row : List ℝ) : List ℝ :=
  (List.range node.num_classes).map
    (fun new_label =>
      listMean ((node.new_to_old_classes.getD new_label []).map (fun old => row.getD old 0)))

/-- Written from the specification's words: the total factor a node contributes
to one original class `c` of one sample — the product, over the node's child
indices whose group owns `c`, of the softmax-normalized node-local probability
of that child. -/
noncomputable def nodeFactor (node : Node) (smRow : List ℝ) (c : Nat) : ℝ :=
  (((List.range node.children.length).filter
      (fun j => decide (c ∈ node.new_to_old_classes.getD j []))).map
    (fun j => smRow.getD j 0)).prod

/-- Written from the specification's words: "a running per-sample,
per-original-class probability vector initialized to all-ones. For every node,
for every child group, multiply the subset of original-class probability
entries owned by that group by the node's local (softmax-normalized)
probability for that child." -/
noncomputable def specSoftProbs (nodes : List Node) (classes : List String)
    (outputs : List (List ℝ)) : List (List ℝ) :=
  nodes.foldl
    (fun probs node =>
      probs.mapIdx (fun s row =>
        row.mapIdx (fun c x =>
          x * nodeFactor node (softmaxRow (specLocalOutput node (outputs.getD s []))) c)))
    (List.replicate outputs.length (List.replicate classes.length (1 : ℝ)))

/-- Written from the specification's words: the soft-routing prediction of each
sample is the argmax of its final original-class probability vector. -/
noncomputable def specSoftPreds (nodes : List Node) (classes : List String)
    (outputs : List (List ℝ)) : List Int :=
  (specSoftProbs nodes classes outputs).map (fun row => (argmaxList row : Int))

/-! ## Helper lemmas -/

theorem range_getD (n i : Nat) (h : i < n) : (List.range n).getD i 0 = i := by
  rw [List.getD_eq_getElem _ _ (by simpa using h)]
  simp

theorem countTrue_cons (b : Bool) (l : List Bool) :
    countTrue (b :: l) = (if b then 1 else 0) + countTrue l := by
  cases b <;> simp [countTrue, List.filter_cons, Nat.add_comm]

theorem collectOpt_getD (f : Nat → Option Int) (l : List Nat) :
    ∀ res, collectOpt f l = some res →
      res.length = l.length ∧ ∀ k < l.length, f (l.getD k 0) = some (res.getD k 0) := by
  induction l with
  | nil =>
    intro res h
    simp [collectOpt] at h
    subst h
    simp
  | cons i is ih =>
    intro res h
    rw [collectOpt] at h
    rcases hfi : f i with _ | v <;> rw [hfi] at h
    · exact absurd h (by simp)
    rcases hrec : collectOpt f is with _ | vs <;> rw [hrec] at h
    · exact absurd h (by simp)
    simp at h
    subst h
    obtain ⟨hlen, hall⟩ := ih vs hrec
    refine ⟨by simp [hlen], ?_⟩
    intro k hk
    cases k with
    | zero => simpa using hfi
    | succ k' =>
      simp only [List.getD_cons_succ]
      exact hall k' (by simpa using hk)

theorem travLoop_specHard (w2n : String → Option Node)
    (wps : String → Option (List Nat × List Bool)) (w2c : String → Option String)
    (classes : List String) (index : Nat) :
    ∀ (fuel : Nat) (w : String),
      (travLoop w2n wps index fuel (w2n w) (some w)).map (predOfWnid w2c classes)
        = specHardMachine w2n wps w2c classes index fuel w := by
  intro fuel
  induction fuel with
  | zero =>
    intro w
    rw [specHardMachine]
    rcases hn : w2n w with _ | node
    · simp [travLoop, predOfWnid]
    · simp [travLoop]
  | succ fuel ih =>
    intro w
    rw [specHardMachine]
    rcases hn : w2n w with _ | node
    · simp [travLoop, predOfWnid]
    · simp only [hn]
      rcases hp : wps node.wnid with _ | ps
      · simp [travLoop, hp, predOfWnid]
      · simp only [travLoop, hp]
        by_cases hsel : ps.2.getD index false = false
        · rw [if_pos hsel, if_pos hsel]
          simp [predOfWnid]
        · rw [if_neg hsel, if_neg hsel]
          exact ih _

theorem countTrue_pos_take (l : List Bool) :
    ∀ i, i < l.length → l.getD i false = true → 1 ≤ countTrue (l.take (i + 1)) := by
  induction l with
  | nil => intro i hi _; simp at hi
  | cons b bs ih =>
    intro i hi hb
    cases i with
    | zero =>
      have hbt : b = true := by simpa using hb
      subst hbt
      simp [countTrue, List.filter_cons]
    | succ i' =>
      have := ih i' (by simpa using hi) (by simpa using hb)
      rw [List.take_succ_cons, countTrue_cons]
      omega

theorem applicableIdx_getD (selector : List Bool) :
    ∀ (f : Nat → Nat) (index : Nat), index < selector.length →
      selector.getD index false = true →
      ((applicableIdx selector).map f).getD (lockstepPos selector index) 0 = f index := by
  induction selector with
  | nil => intro f i hi _; simp at hi
  | cons b bs ih =>
    intro f i hi hb
    cases i with
    | zero =>
      have hbt : b = true := by simpa using hb
      subst hbt
      simp [applicableIdx, lockstepPos, countTrue, List.filter_cons]
    | succ i' =>
      have hi' : i' < bs.length := by simpa using hi
      have hb' : bs.getD i' false = true := by simpa using hb
      have hc1 := countTrue_pos_take bs i' hi' hb'
      have hmm : ((applicableIdx bs).map (fun i => i + 1)).map f
          = (applicableIdx bs).map (fun j => f (j + 1)) := by
        simp [List.map_map, Function.comp]
      cases b with
      | true =>
        have hpos : lockstepPos (true :: bs) (i' + 1)
            = countTrue (bs.take (i' + 1)) := by
          simp only [lockstepPos, List.take_succ_cons, countTrue_cons, if_pos]
          omega
        obtain ⟨c', hc'⟩ : ∃ c', countTrue (bs.take (i' + 1)) = c' + 1 :=
          ⟨countTrue (bs.take (i' + 1)) - 1, by omega⟩
        have hIH := ih (fun j => f (j + 1)) i' hi' hb'
        simp only [applicableIdx, if_pos, List.singleton_append, List.map_cons, hmm,
          hpos, hc', List.getD_cons_succ]
        have hpos' : lockstepPos bs i' = c' := by
          simp only [lockstepPos]
          omega
        rw [← hpos', hIH]
      | false =>
        have hpos : lockstepPos (false :: bs) (i' + 1) = lockstepPos bs i' := by
          simp [lockstepPos, List.take_succ_cons, countTrue_cons]
        have hIH := ih (fun j => f (j + 1)) i' hi' hb'
        simpa [applicableIdx, hpos, List.map_map, Function.comp] using hIH

/-! ## Example instances used by the witnesses -/

/-- A two-level example hierarchy for the hard-routing witnesses: root `"r"`
with leaf children `"a"` and `"b"`. -/
def exC1node : Node := ⟨"r", ["a", "b"], 2, [[0], [1]]⟩

def exC1w2n : String → Option Node := fun w => if w = "r" then some exC1node else none

def exC1wps : String → Option (List Nat × List Bool) :=
  fun w => if w = "r" then some ([1, 0], [true, true]) else none

def exC1w2c : String → Option String :=
  fun w => if w = "a" then some "cat" else if w = "b" then some "dog" else none

/-- A one-edge example hierarchy for the termination witness. -/
def exC10node : Node := ⟨"r", ["a"], 1, [[0]]⟩

def exC10w2n : String → Option Node := fun w => if w = "r" then some exC10node else none

def exC10m : String → Nat := fun w => if w = "r" then 1 else 0

/-! ## Claim theorems (hard routing) -/

/-- Claim C1: for every sample index, `DecisionTreePrior.traverse_tree` walks
from the root node and behaves as the per-sample state machine
`specHardMachine`: at each current node, a missing `wnid_to_pred_selector`
entry or a false selector entry at this sample's index yields the unresolved
sentinel `-1`; otherwise the node-local argmax prediction selects the child at
that position of `node.children` and traversal moves there; when the new
identifier has no corresponding node, traversal terminates and the result is
the original-class index obtained from the wnid-to-class lookup of that leaf
identifier. -/
theorem hard_routing_state_machine (w2n : String → Option Node)
    (w2c : String → Option String) (classes : List String) (p : List Int)
    (wps : String → Option (List Nat × List Bool)) (wnid_root : String)
    (n_samples fuel : Nat) (preds : List Int)
    (hres : DecisionTreePrior_traverse w2n w2c classes p wps wnid_root n_samples fuel
      = some preds) :
    ∀ index < n_samples,
      specHardMachine w2n wps w2c classes index fuel wnid_root
        = some (preds.getD index 0) := by
  intro index hidx
  rw [DecisionTreePrior_traverse] at hres
  rcases hn : w2n wnid_root with _ | rootNode <;> rw [hn] at hres
  · exact absurd hres (by simp)
  · obtain ⟨hlen, hall⟩ := collectOpt_getD _ _ _ hres
    have h := hall index (by simpa using hidx)
    rw [range_getD _ _ hidx] at h
    rw [samplePred, travLoop_specHard] at h
    exact h

/-- Witness for C1 on the concrete two-level hierarchy `exC1node`. -/
theorem hard_routing_state_machine_witness :
    DecisionTreePrior_traverse exC1w2n exC1w2c ["cat", "dog"] [] exC1wps "r" 2 2
      = some [1, 0]
    ∧ specHardMachine exC1w2n exC1wps exC1w2c ["cat", "dog"] 0 2 "r"
        = some (([1, 0] : List Int).getD 0 0) := by
  have h : DecisionTreePrior_traverse exC1w2n exC1w2c ["cat", "dog"] [] exC1wps "r" 2 2
      = some [1, 0] := by decide
  refine ⟨h, ?_⟩
  exact hard_routing_state_machine exC1w2n exC1w2c ["cat", "dog"] [] exC1wps "r" 2 2
    [1, 0] h 0 (by decide)

/-- Claim C3: in hard routing, the position used to read an applicable
sample's node-local prediction is `sum(selector[:index+1]) - 1`, and when the
local-predictions list holds exactly the applicable samples in batch order
(`(applicableIdx selector).map f`, where `f` gives the prediction belonging to
each batch index), that position addresses the prediction belonging to that
sample. -/
theorem lockstep_index_lookup (selector : List Bool) (f : Nat → Nat) (index : Nat)
    (preds_sub : List Nat)
    (hidx : index < selector.length) (hsel : selector.getD index false = true)
    (hpreds : preds_sub = (applicableIdx selector).map f) :
    lockstepPos selector index = countTrue (selector.take (index + 1)) - 1
    ∧ preds_sub.getD (lockstepPos selector index) 0 = f index := by
  refine ⟨rfl, ?_⟩
  subst hpreds
  exact applicableIdx_getD selector f index hidx hsel

/-- Witness for C3: batch `[true, false, true]`, sample 2. -/
theorem lockstep_index_lookup_witness :
    2 < ([true, false, true] : List Bool).length
    ∧ ([true, false, true] : List Bool).getD 2 false = true
    ∧ ([0, 20] : List Nat) = (applicableIdx [true, false, true]).map (fun i => 10 * i)
    ∧ (lockstepPos [true, false, true] 2 = countTrue (([true, false, true] : List Bool).take 3) - 1
       ∧ ([0, 20] : List Nat).getD (lockstepPos [true, false, true] 2) 0 = 10 * 2) := by
  refine ⟨by decide, by decide, by decide, ?_⟩
  exact lockstep_index_lookup [true, false, true] (fun i => 10 * i) 2 [0, 20]
    (by decide) (by decide) (by decide)

/-- Claim C8: the `predicted` argument (the `_` parameter of
`DecisionTreePrior.traverse_tree`) has no influence on the hard-routing
results: any two values give identical traversal output. -/
theorem predicted_unused_in_hard_routing (w2n : String → Option Node)
    (w2c : String → Option String) (classes : List String)
    (wps : String → Option (List Nat × List Bool)) (wnid_root : String)
    (n_samples fuel : Nat) (p₁ p₂ : List Int) :
    DecisionTreePrior_traverse w2n w2c classes p₁ wps wnid_root n_samples fuel
      = DecisionTreePrior_traverse w2n w2c classes p₂ wps wnid_root n_samples fuel := rfl

/-- Claim C10: when the child links reachable from the root admit a
strictly decreasing measure (every wnid-to-node child chain from the root has
bounded length) and the out-of-range default identifier resolves to no node,
the per-sample while loop of `DecisionTreePrior.traverse_tree` terminates with
enough fuel, either at the unresolved sentinel or at a leaf identifier. -/
theorem hard_routing_loop_terminates (w2n : String → Option Node)
    (wps : String → Option (List Nat × List Bool)) (m : String → Nat)
    (hm : ∀ w nd, w2n w = some nd → ∀ c ∈ nd.children, m c < m w)
    (hempty : w2n "" = none) :
    ∀ (fuel : Nat) (wnid_root : String) (index : Nat), m wnid_root < fuel →
      ∃ r, travLoop w2n wps index fuel (w2n wnid_root) (some wnid_root) = some r
        ∧ (r = none ∨ ∃ w, r = some w ∧ w2n w = none) := by
  intro fuel
  induction fuel with
  | zero => intro w index h; omega
  | succ fuel ih =>
    intro w index hfuel
    rcases hn : w2n w with _ | node
    · exact ⟨some w, by simp [travLoop], Or.inr ⟨w, rfl, hn⟩⟩
    · rcases hp : wps node.wnid with _ | ps
      · exact ⟨none, by simp [travLoop, hp], Or.inl rfl⟩
      · by_cases hsel : ps.2.getD index false = false
        · refine ⟨none, ?_, Or.inl rfl⟩
          simp only [travLoop, hp]
          rw [if_pos hsel]
        · by_cases hrange : ps.1.getD (lockstepPos ps.2 index) 0 < node.children.length
          · have hw' : node.children.getD (ps.1.getD (lockstepPos ps.2 index) 0) ""
                ∈ node.children := by
              rw [List.getD_eq_getElem _ _ (by simpa using hrange)]
              exact List.getElem_mem _
            have hm' := hm w node hn _ hw'
            obtain ⟨r, hr, hleaf⟩ := ih (node.children.getD (ps.1.getD (lockstepPos ps.2 index) 0) "")
              index (by omega)
            refine ⟨r, ?_, hleaf⟩
            simp only [travLoop, hp]
            rw [if_neg hsel]
            exact hr
          · have hdflt : node.children.getD (ps.1.getD (lockstepPos ps.2 index) 0) "" = "" :=
              List.getD_eq_default _ _ (by omega)
            refine ⟨some "", ?_, Or.inr ⟨"", rfl, hempty⟩⟩
            simp only [travLoop, hp]
            rw [if_neg hsel]
            rw [hdflt, hempty]
            simp [travLoop]

/-- Witness for C10 on the concrete one-edge hierarchy `exC10node`. -/
theorem hard_routing_loop_terminates_witness :
    ∃ r, travLoop exC10w2n (fun _ => none) 0 2 (exC10w2n "r") (some "r") = some r
      ∧ (r = none ∨ ∃ w, r = some w ∧ exC10w2n w = none) := by
  refine hard_routing_loop_terminates exC10w2n (fun _ => none) exC10m ?_ ?_ 2 "r" 0 (by decide)
  · intro w nd h c hc
    by_cases hw : w = "r"
    · subst hw
      simp only [exC10w2n, if_pos] at h
      rcases h with rfl | h
      · simp only [exC10node] at hc
        simp at hc
        subst hc
        decide
    · simp [exC10w2n, hw] at h
  · decide

/-! ## Claim theorems (hooks and counters) -/

/-- Claim C4 (counterexample): `start_test` does not reset the running
counters.  On a state whose `correct` counter is 5, `Noop.start_test` (which
`DecisionTreePrior` and `DecisionTreeBayesianPrior` inherit unchanged)
succeeds and leaves `correct` at 5, not 0. -/
theorem counters_not_reset_by_start_test :
    Noop_start_test ⟨some 1, 5, 7⟩ 1 = some ⟨some 1, 5, 7⟩
    ∧ (⟨some 1, 5, 7⟩ : PriorState).correct ≠ 0 := by
  constructor <;> decide

/-- Claim C4 (amended): the counters start at zero at construction and are
left untouched by `start_test` (which only checks the epoch); each
`update_batch` increases `total` by exactly the batch size and `correct` by
exactly the number of samples whose final prediction equals its target, so
both counters are monotonically non-decreasing across the test phase. -/
theorem counters_lifecycle (s s' : PriorState) (epoch : Int) (n_samples : Nat)
    (predicted targets : List Int)
    (h : Noop_start_test s epoch = some s') :
    DecisionTreePrior_init.correct = 0 ∧ DecisionTreePrior_init.total = 0
    ∧ s' = s
    ∧ (updateCounters s n_samples predicted targets).total = s.total + (n_samples : Int)
    ∧ (updateCounters s n_samples predicted targets).correct
        = s.correct + (countEq predicted targets : Int)
    ∧ s.total ≤ (updateCounters s n_samples predicted targets).total
    ∧ s.correct ≤ (updateCounters s n_samples predicted targets).correct := by
  refine ⟨rfl, rfl, ?_, rfl, rfl, ?_, ?_⟩
  · simp only [Noop_start_test, assertEpoch] at h
    split at h <;> simp_all
  · simp only [updateCounters]
    omega
  · simp only [updateCounters]
    omega

/-- Witness for C4 (amended) at a concrete state and batch. -/
theorem counters_lifecycle_witness :
    Noop_start_test ⟨some 1, 5, 7⟩ 1 = some ⟨some 1, 5, 7⟩
    ∧ (DecisionTreePrior_init.correct = 0 ∧ DecisionTreePrior_init.total = 0
       ∧ (⟨some 1, 5, 7⟩ : PriorState) = ⟨some 1, 5, 7⟩
       ∧ (updateCounters ⟨some 1, 5, 7⟩ 2 [3, 4] [3, 5]).total = 7 + ((2 : Nat) : Int)
       ∧ (updateCounters ⟨some 1, 5, 7⟩ 2 [3, 4] [3, 5]).correct
           = 5 + (countEq [3, 4] [3, 5] : Int)
       ∧ (7 : Int) ≤ (updateCounters ⟨some 1, 5, 7⟩ 2 [3, 4] [3, 5]).total
       ∧ (5 : Int) ≤ (updateCounters ⟨some 1, 5, 7⟩ 2 [3, 4] [3, 5]).correct) :=
  ⟨by decide, counters_lifecycle ⟨some 1, 5, 7⟩ ⟨some 1, 5, 7⟩ 1 2 [3, 4] [3, 5] (by decide)⟩

/-- Claim C5 (counterexample): `DecisionTreeBayesianPrior.end_test` overrides
`Noop.end_test` without delegating to it, so an epoch mismatch does not make
the call fail: with recorded epoch 0 and argument 1 the call still succeeds. -/
theorem bayes_end_test_skips_epoch_check :
    DecisionTreeBayesianPrior_end_test ⟨some 0, 3, 7⟩ 1 = some ⟨some 0, 3, 7⟩
    ∧ (⟨some 0, 3, 7⟩ : PriorState).epoch ≠ some 1 := by
  constructor <;> decide

/-- Claim C5 (amended): every start/end hook that reaches `Noop`'s epoch
assertion (`start_train`, `end_train`, `start_test`, `end_test`, `end_epoch`)
succeeds exactly when the epoch argument matches the value last set by
`start_epoch`, and on success leaves the state unchanged; hooks that override
without delegating — `DecisionTreeBayesianPrior.end_test` — perform no epoch
check: regardless of the epoch argument, that call succeeds exactly when the
`total` counter is non-zero (a zero `total` raises `ZeroDivisionError` in the
accuracy computation, not an epoch assertion). -/
theorem epoch_check_hooks (s : PriorState) (epoch : Int) :
    ((Noop_start_train s epoch).isSome ↔ s.epoch = some epoch)
    ∧ ((Noop_end_train s epoch).isSome ↔ s.epoch = some epoch)
    ∧ ((Noop_start_test s epoch).isSome ↔ s.epoch = some epoch)
    ∧ ((Noop_end_test s epoch).isSome ↔ s.epoch = some epoch)
    ∧ ((Noop_end_epoch s epoch).isSome ↔ s.epoch = some epoch)
    ∧ (s.epoch = some epoch → Noop_start_train s epoch = some s)
    ∧ ((Noop_start_epoch s epoch).epoch = some epoch)
    ∧ ((DecisionTreeBayesianPrior_end_test s epoch).isSome ↔ ¬ s.total = 0) := by
  refine ⟨?_, ?_, ?_, ?_, ?_, ?_, ?_, ?_⟩ <;>
    simp [Noop_start_train, Noop_end_train, Noop_start_test, Noop_end_test, Noop_end_epoch,
      Noop_start_epoch, DecisionTreeBayesianPrior_end_test, assertEpoch] <;>
    split <;> simp_all

theorem filterZip_length {α : Type} (sel : List Bool) :
    ∀ (l : List α), sel.length = l.length →
      (((sel.zip l).filter (fun z => z.1)).map (fun z => z.2)).length = countTrue sel := by
  induction sel with
  | nil => intro l h; simp [countTrue]
  | cons b bs ih =>
    intro l h
    cases l with
    | nil => simp at h
    | cons x xs =>
      have h' : bs.length = xs.length := by simpa using h
      cases b <;> simp [List.zip_cons_cons, List.filter_cons, countTrue_cons, ih xs h'] <;> omega

theorem TreeSup_selector_eq (node : Node) (outputs : List (List ℝ)) (targets : List Nat) :
    (TreeSup_inference node outputs targets).1
      = targets.map (fun t => node.new_to_old_classes.any (fun ids => ids.contains t)) := rfl

theorem TreeSup_outputs_sub_eq (node : Node) (outputs : List (List ℝ)) (targets : List Nat) :
    (TreeSup_inference node outputs targets).2.1
      = (((targets.map (fun t => node.new_to_old_classes.any (fun ids => ids.contains t))).zip
          (outputs.map (fun row =>
            (List.range node.num_classes).map
              (fun new_label =>
                listMean ((node.new_to_old_classes.getD new_label []).map
                  (fun i => row.getD i 0)))))).filter
          (fun z => z.1)).map (fun z => z.2) := rfl

theorem DTP_update_wps_aux (outputs : List (List ℝ)) (targets : List Nat)
    (ht : targets.length = outputs.length) :
    ∀ (nodes : List Node) (acc : List (String × (List Nat × List Bool))),
    (∀ e ∈ acc, e.2.2.length = outputs.length ∧ e.2.1.length = countTrue e.2.2
        ∧ e.2.2.any (fun b => b) = true) →
    (∀ e ∈ nodes.foldl
        (fun acc node =>
          let r := TreeSup_inference node outputs targets
          if r.1.any (fun b => b) then acc ++ [(node.wnid, (r.2.1.map argmaxList, r.1))]
          else acc) acc,
        e.2.2.length = outputs.length ∧ e.2.1.length = countTrue e.2.2
          ∧ e.2.2.any (fun b => b) = true)
    ∧ (nodes.foldl
        (fun acc node =>
          let r := TreeSup_inference node outputs targets
          if r.1.any (fun b => b) then acc ++ [(node.wnid, (r.2.1.map argmaxList, r.1))]
          else acc) acc).length
        = acc.length + (nodes.filter
            (fun nd => (TreeSup_inference nd outputs targets).1.any (fun b => b))).length := by
  intro nodes
  induction nodes with
  | nil =>
    intro acc hacc
    exact ⟨hacc, by simp⟩
  | cons nd rest ih =>
    intro acc hacc
    simp only [List.foldl_cons, List.filter_cons]
    by_cases hany : (TreeSup_inference nd outputs targets).1.any (fun b => b) = true
    · rw [if_pos hany]
      have hnew : ∀ e ∈ acc ++ [(nd.wnid,
          ((TreeSup_inference nd outputs targets).2.1.map argmaxList,
            (TreeSup_inference nd outputs targets).1))],
          e.2.2.length = outputs.length ∧ e.2.1.length = countTrue e.2.2
            ∧ e.2.2.any (fun b => b) = true := by
        intro e he
        rcases List.mem_append.mp he with h | h
        · exact hacc e h
        · simp only [List.mem_singleton] at h
          subst h
          refine ⟨?_, ?_, hany⟩
          · rw [TreeSup_selector_eq]
            simp [ht]
          · rw [TreeSup_outputs_sub_eq, TreeSup_selector_eq, List.length_map]
            exact filterZip_length _ _ (by simp [ht])
      obtain ⟨h1, h2⟩ := ih _ hnew
      refine ⟨h1, ?_⟩
      rw [h2]
      simp [hany]
      omega
    · rw [if_neg hany]
      obtain ⟨h1, h2⟩ := ih _ hacc
      refine ⟨h1, ?_⟩
      rw [h2]
      simp [hany]

/-- Claim C7: for every batch with as many targets as output rows, every node
retained in `wnid_to_pred_selector` has a selector as long as the batch, a
local-predictions list exactly as long as the number of true selector entries,
and at least one true selector entry; nodes with an all-false selector are not
entered at all, so the map has exactly one entry per node with a true entry. -/
theorem per_node_decision_data_shape (nodes : List Node) (outputs : List (List ℝ))
    (targets : List Nat) (ht : targets.length = outputs.length) :
    (∀ e ∈ DecisionTreePrior_update_wps nodes outputs targets,
        e.2.2.length = outputs.length
        ∧ e.2.1.length = countTrue e.2.2
        ∧ e.2.2.any (fun b => b) = true)
    ∧ (DecisionTreePrior_update_wps nodes outputs targets).length
        = (nodes.filter
            (fun nd => (TreeSup_inference nd outputs targets).1.any (fun b => b))).length := by
  have h := DTP_update_wps_aux outputs targets ht nodes [] (by intro e he; simp at he)
  simpa [DecisionTreePrior_update_wps] using h

/-- Witness for C7 on a one-node hierarchy and a one-sample batch. -/
theorem per_node_decision_data_shape_witness :
    ([0] : List Nat).length = ([[(1 : ℝ), 2]] : List (List ℝ)).length
    ∧ ((∀ e ∈ DecisionTreePrior_update_wps [exC1node] [[(1 : ℝ), 2]] [0],
          e.2.2.length = ([[(1 : ℝ), 2]] : List (List ℝ)).length
          ∧ e.2.1.length = countTrue e.2.2
          ∧ e.2.2.any (fun b => b) = true)
        ∧ (DecisionTreePrior_update_wps [exC1node] [[(1 : ℝ), 2]] [0]).length
            = (([exC1node] : List Node).filter
                (fun nd => (TreeSup_inference nd [[(1 : ℝ), 2]] [0]).1.any (fun b => b))).length) :=
  ⟨by decide, per_node_decision_data_shape [exC1node] [[(1 : ℝ), 2]] [0] (by decide)⟩

/-! ## Helper lemmas (soft routing) -/

theorem getD_map_list {α β : Type} (f : α → β) (l : List α) (i : Nat) (d : β) (d' : α)
    (h : i < l.length) : (l.map f).getD i d = f (l.getD i d') := by
  rw [List.getD_eq_getElem _ _ (by simpa using h), List.getD_eq_getElem _ _ h]
  simp

theorem getD_mem {α : Type} (l : List α) (i : Nat) (d : α) (h : i < l.length) :
    l.getD i d ∈ l := by
  rw [List.getD_eq_getElem _ _ h]
  exact List.getElem_mem _

theorem listMean_singleton (x : ℝ) : listMean [x] = x := by
  simp [listMean]

theorem childUpdate_length (ids : List Nat) (p : ℝ) (row : List ℝ) :
    (childUpdate ids p row).length = row.length := by
  simp [childUpdate]

theorem childUpdate_foldl (ids : Nat → List Nat) (p : Nat → ℝ) :
    ∀ (m : Nat) (row : List ℝ),
      (List.range m).foldl (fun r j => childUpdate (ids j) (p j) r) row
        = row.mapIdx (fun c x =>
            x * (((List.range m).filter (fun j => decide (c ∈ ids j))).map p).prod) := by
  intro m
  induction m with
  | zero =>
    intro row
    apply List.ext_getElem (by simp)
    intro i h1 h2
    simp [List.getElem_mapIdx]
  | succ m ihm =>
    intro row
    rw [List.range_succ, List.foldl_append, List.foldl_cons, List.foldl_nil, ihm]
    apply List.ext_getElem (by simp [childUpdate])
    intro i h1 h2
    simp only [childUpdate, List.getElem_mapIdx]
    rw [List.filter_append]
    by_cases hmem : i ∈ ids m
    · rw [if_pos hmem]
      simp [List.filter_cons, hmem, mul_assoc]
    · rw [if_neg hmem]
      simp [List.filter_cons, hmem]

theorem nodeUpdateRow_eq (node : Node) (outRow : List ℝ) (row : List ℝ) :
    nodeUpdateRow node outRow row
      = row.mapIdx (fun c x => x * nodeFactor node (softmaxRow outRow) c) := by
  unfold nodeUpdateRow nodeFactor
  exact childUpdate_foldl (fun j => node.new_to_old_classes.getD j [])
    (fun j => (softmaxRow outRow).getD j 0) node.children.length row

theorem nodeUpdateRow_length (node : Node) (outRow : List ℝ) (row : List ℝ) :
    (nodeUpdateRow node outRow row).length = row.length := by
  rw [nodeUpdateRow_eq]
  simp

theorem dictGet_nodes {β : Type} (g : Node → β) :
    ∀ (nodes : List Node), (nodes.map Node.wnid).Nodup →
      ∀ nd ∈ nodes, dictGet (nodes.map (fun x => (x.wnid, g x))) nd.wnid = some (g nd) := by
  intro nodes
  induction nodes with
  | nil => intro _ nd h; simp at h
  | cons a rest ih =>
    intro hnodup nd hmem
    rw [List.map_cons] at hnodup
    obtain ⟨hnotin, hrest⟩ := List.nodup_cons.mp hnodup
    rcases List.mem_cons.mp hmem with rfl | hmem'
    · unfold dictGet
      rw [List.map_cons, List.reverse_cons, List.find?_append]
      have hnone : ((rest.map (fun x => (x.wnid, g x))).reverse).find?
          (fun e => e.1 == nd.wnid) = none := by
        rw [List.find?_eq_none]
        intro e he
        rw [List.mem_reverse] at he
        obtain ⟨x, hx, rfl⟩ := List.mem_map.mp he
        simp only [beq_iff_eq]
        intro hEq
        exact hnotin (hEq ▸ List.mem_map_of_mem Node.wnid hx)
      rw [hnone]
      simp [Option.or]
    · have hIH := ih hrest nd hmem'
      unfold dictGet at hIH ⊢
      rw [List.map_cons, List.reverse_cons, List.find?_append]
      rcases hfind : ((rest.map (fun x => (x.wnid, g x))).reverse).find?
          (fun e => e.1 == nd.wnid) with _ | pr
      · rw [hfind] at hIH
        simp at hIH
      · rw [hfind] at hIH
        rw [hfind]
        simpa [Option.or] using hIH

theorem foldl_congr_inv {α β : Type} (P : β → Prop) :
    ∀ (l : List α) (f g : β → α → β) (b : β),
      P b → (∀ x a, P x → P (f x a)) → (∀ a ∈ l, ∀ x : β, P x → f x a = g x a) →
      l.foldl f b = l.foldl g b := by
  intro l
  induction l with
  | nil => intros; rfl
  | cons a rest ih =>
    intro f g b hPb hpres hfg
    simp only [List.foldl_cons]
    rw [← hfg a (by simp) b hPb]
    exact ih f g (f b a) (hpres b a hPb) hpres (fun a' ha' x hx => hfg a' (by simp [ha']) x hx)

theorem soft_probs_eq (nodes : List Node) (classes : List String) (outputs : List (List ℝ))
    (hnodup : (nodes.map Node.wnid).Nodup) :
    DecisionTreeBayesianPrior_update_batch_preds nodes classes outputs
      = specSoftPreds nodes classes outputs := by
  simp only [DecisionTreeBayesianPrior_update_batch_preds, DecisionTreeBayesianPrior_traverse,
    specSoftPreds, specSoftProbs]
  congr 1
  apply foldl_congr_inv (fun probs => probs.length = outputs.length)
  · simp
  · intro x a hx
    simpa using hx
  · intro node hnode probs hP
    have hdict := dictGet_nodes (fun nd => nodeOutput nd outputs) nodes hnodup node hnode
    rw [hdict]
    simp only [Option.getD_some]
    apply List.ext_getElem (by simp)
    intro s h1 h2
    simp only [List.getElem_mapIdx]
    have hs : s < outputs.length := by
      have : s < probs.length := by simpa using h1
      omega
    have hout : (nodeOutput node outputs).getD s []
        = specLocalOutput node (outputs.getD s []) := by
      have : nodeOutput node outputs = outputs.map (fun row => specLocalOutput node row) := rfl
      rw [this, getD_map_list _ _ _ _ [] hs]
    rw [hout, nodeUpdateRow_eq]

theorem argmaxList_lt_length : ∀ (l : List ℝ), l ≠ [] → argmaxList l < l.length := by
  intro l
  induction l with
  | nil => intro h; simp at h
  | cons x xs ih =>
    intro _
    rw [argmaxList]
    split
    · simp
    · rcases xs with _ | ⟨y, ys⟩
      · simp_all
      · have := ih (by simp)
        simpa using Nat.succ_lt_succ this

theorem argmaxList_map_strictMono (f : ℝ → ℝ) (hf : StrictMono f) :
    ∀ l : List ℝ, argmaxList (l.map f) = argmaxList l := by
  intro l
  induction l with
  | nil => simp
  | cons x xs ih =>
    rw [List.map_cons, argmaxList, argmaxList]
    by_cases h : ∀ y ∈ xs, y ≤ x
    · have h' : ∀ y ∈ xs.map f, y ≤ f x := by
        intro y hy
        obtain ⟨z, hz, rfl⟩ := List.mem_map.mp hy
        exact hf.le_iff_le.mpr (h z hz)
      rw [if_pos h', if_pos h]
    · have h' : ¬ ∀ y ∈ xs.map f, y ≤ f x := by
        intro hcon
        exact h (fun y hy => hf.le_iff_le.mp (hcon (f y) (List.mem_map_of_mem f hy)))
      rw [if_neg h', if_neg h, ih]

theorem argmax_softmax (l : List ℝ) (hl : l ≠ []) :
    argmaxList (softmaxRow l) = argmaxList l := by
  have hS : 0 < (l.map Real.exp).sum := by
    apply List.sum_pos
    · intro x hx
      obtain ⟨y, _, rfl⟩ := List.mem_map.mp hx
      exact Real.exp_pos y
    · simpa using hl
  have hmono : StrictMono (fun x : ℝ => Real.exp x / (l.map Real.exp).sum) := by
    intro a b hab
    exact div_lt_div_of_pos_right (Real.exp_lt_exp.mpr hab) hS
  exact argmaxList_map_strictMono _ hmono l

theorem filter_range_mem_singleton (k c : Nat) (hc : c < k) :
    (List.range k).filter (fun j => decide (c ∈ ([j] : List Nat))) = [c] := by
  induction k with
  | zero => omega
  | succ k ihk =>
    rw [List.range_succ, List.filter_append]
    by_cases h : c < k
    · rw [ihk h]
      have hck : ¬ (c = k) := by omega
      have h2 : ([k] : List Nat).filter (fun j => decide (c ∈ ([j] : List Nat))) = [] := by
        simp [List.filter_cons, hck]
      rw [h2]
      simp
    · have hck : c = k := by omega
      subst hck
      have h1 : (List.range c).filter (fun j => decide (c ∈ ([j] : List Nat))) = [] := by
        rw [List.filter_eq_nil_iff]
        intro j hj
        have hj' := List.mem_range.mp hj
        simp only [List.mem_singleton, decide_eq_true_eq]
        omega
      rw [h1]
      simp [List.filter_cons]

theorem nodeFactor_single (node : Node) (k : Nat) (sm : List ℝ) (c : Nat)
    (hch : node.children.length = k)
    (hmap : node.new_to_old_classes = (List.range k).map (fun j => [j]))
    (hc : c < k) :
    nodeFactor node sm c = sm.getD c 0 := by
  unfold nodeFactor
  rw [hch, hmap]
  have hfil : (List.range k).filter
      (fun j => decide (c ∈ ((List.range k).map (fun j => [j])).getD j []))
      = (List.range k).filter (fun j => decide (c ∈ ([j] : List Nat))) := by
    apply List.filter_congr
    intro j hj
    have hjk : j < k := List.mem_range.mp hj
    rw [getD_map_list _ _ _ _ 0 (by simpa using hjk), range_getD _ _ hjk]
  rw [hfil, filter_range_mem_singleton k c hc]
  simp

theorem specLocalOutput_id (node : Node) (row : List ℝ) (k : Nat)
    (hk : node.num_classes = k)
    (hmap : node.new_to_old_classes = (List.range k).map (fun j => [j]))
    (hrow : row.length = k) :
    specLocalOutput node row = row := by
  apply List.ext_getElem (by simp [specLocalOutput, hk, hrow])
  intro j h1 h2
  have hjk : j < k := by simpa [specLocalOutput, hk] using h1
  simp only [specLocalOutput, List.getElem_map, List.getElem_range]
  rw [hmap, getD_map_list _ _ _ _ 0 (by simpa using hjk), range_getD _ _ hjk]
  simp only [List.map_cons, List.map_nil]
  rw [listMean_singleton, List.getD_eq_getElem _ _ (by omega)]

theorem single_node_probs_row (node : Node) (classes : List String)
    (outputs : List (List ℝ)) (i : Nat)
    (hch : node.children.length = classes.length)
    (hmap : node.new_to_old_classes = (List.range classes.length).map (fun j => [j]))
    (hk : node.num_classes = classes.length)
    (hi : i < outputs.length)
    (hrow : (outputs.getD i []).length = classes.length) :
    (specSoftProbs [node] classes outputs).getD i [] = softmaxRow (outputs.getD i []) := by
  simp only [specSoftProbs, List.foldl_cons, List.foldl_nil]
  rw [List.getD_eq_getElem _ _ (by simpa using hi)]
  rw [List.getElem_mapIdx]
  rw [List.getElem_replicate]
  rw [specLocalOutput_id node (outputs.getD i []) classes.length hk hmap hrow]
  have hsm : (softmaxRow (outputs.getD i [])).length = classes.length := by
    simp only [softmaxRow, List.length_map]
    exact hrow
  apply List.ext_getElem (by rw [List.length_mapIdx, List.length_replicate, hsm])
  intro c h1 h2
  have hck : c < classes.length := by simpa using h1
  simp only [List.getElem_mapIdx, List.getElem_replicate]
  rw [nodeFactor_single node classes.length _ c hch hmap hck]
  rw [List.getD_eq_getElem _ _ (by rw [hsm]; exact hck)]
  rw [one_mul]

theorem bayes_fold_rows (d : List (String × List (List ℝ))) (k : Nat) :
    ∀ (nodes : List Node) (probs : List (List ℝ)), (∀ row ∈ probs, row.length = k) →
      (∀ row ∈ nodes.foldl
          (fun probs node =>
            probs.mapIdx (fun s row =>
              nodeUpdateRow node (((dictGet d node.wnid).getD []).getD s []) row)) probs,
          row.length = k)
      ∧ (nodes.foldl
          (fun probs node =>
            probs.mapIdx (fun s row =>
              nodeUpdateRow node (((dictGet d node.wnid).getD []).getD s []) row)) probs).length
          = probs.length := by
  intro nodes
  induction nodes with
  | nil => intro probs h; exact ⟨h, rfl⟩
  | cons nd rest ih =>
    intro probs h
    simp only [List.foldl_cons]
    have hstep : ∀ row ∈ probs.mapIdx (fun s row =>
        nodeUpdateRow nd (((dictGet d nd.wnid).getD []).getD s []) row), row.length = k := by
      intro row hrow
      obtain ⟨i, hilen, hrow'⟩ := List.mem_iff_getElem.mp hrow
      rw [List.getElem_mapIdx] at hrow'
      rw [← hrow', nodeUpdateRow_length]
      exact h _ (List.getElem_mem _)
    obtain ⟨h1, h2⟩ := ih _ hstep
    exact ⟨h1, by rw [h2]; simp⟩

theorem bayes_traverse_facts (nodes : List Node) (classes : List String)
    (wnid_to_output : List (String × List (List ℝ))) (n_samples : Nat) :
    (DecisionTreeBayesianPrior_traverse nodes classes wnid_to_output n_samples).length
        = n_samples
    ∧ ∀ i, i < n_samples →
        ∃ row : List ℝ, row.length = classes.length
          ∧ (DecisionTreeBayesianPrior_traverse nodes classes wnid_to_output n_samples).getD i (-1)
              = (argmaxList row : Int) := by
  obtain ⟨hrows, hlen⟩ := bayes_fold_rows wnid_to_output classes.length nodes
    (List.replicate n_samples (List.replicate classes.length (1 : ℝ)))
    (fun row hrow => by rw [List.eq_of_mem_replicate hrow]; simp)
  constructor
  · simp only [DecisionTreeBayesianPrior_traverse]
    rw [List.length_map, hlen, List.length_replicate]
  · intro i hi
    simp only [DecisionTreeBayesianPrior_traverse]
    refine ⟨(nodes.foldl
        (fun probs node =>
          probs.mapIdx (fun s row =>
            nodeUpdateRow node (((dictGet wnid_to_output node.wnid).getD []).getD s []) row))
        (List.replicate n_samples (List.replicate classes.length (1 : ℝ)))).getD i [], ?_, ?_⟩
    · apply hrows
      apply getD_mem
      rw [hlen, List.length_replicate]
      exact hi
    · rw [getD_map_list _ _ _ _ [] (by rw [hlen, List.length_replicate]; exact hi)]

/-! ## Claim theorems (soft routing) -/

/-- Claim C2: soft routing computes exactly the spec's product form —
`update_batch` builds, for every node (all samples, no gating), the per-sample
per-node-local-class mean of the owned raw output columns, and
`traverse_tree` multiplies an all-ones per-sample per-original-class vector,
for every node and child, at the owned indices by the softmax-normalized
node-local probability, returning per sample the argmax of the result. -/
theorem soft_routing_product_form (nodes : List Node) (classes : List String)
    (outputs : List (List ℝ)) (hnodup : (nodes.map Node.wnid).Nodup) :
    (∀ node ∈ nodes,
        dictGet (nodes.map (fun nd => (nd.wnid, nodeOutput nd outputs))) node.wnid
          = some (outputs.map (fun row => specLocalOutput node row)))
    ∧ DecisionTreeBayesianPrior_update_batch_preds nodes classes outputs
        = specSoftPreds nodes classes outputs := by
  constructor
  · intro node hnode
    exact dictGet_nodes (fun nd => nodeOutput nd outputs) nodes hnodup node hnode
  · exact soft_probs_eq nodes classes outputs hnodup

/-- Witness for C2 on a concrete one-node hierarchy and one-sample batch. -/
theorem soft_routing_product_form_witness :
    (([exC1node] : List Node).map Node.wnid).Nodup
    ∧ ((∀ node ∈ ([exC1node] : List Node),
          dictGet ([exC1node].map (fun nd => (nd.wnid, nodeOutput nd [[(1 : ℝ), 2]]))) node.wnid
            = some ([[(1 : ℝ), 2]].map (fun row => specLocalOutput node row)))
       ∧ DecisionTreeBayesianPrior_update_batch_preds [exC1node] ["cat", "dog"] [[(1 : ℝ), 2]]
           = specSoftPreds [exC1node] ["cat", "dog"] [[(1 : ℝ), 2]]) :=
  ⟨by decide, soft_routing_product_form [exC1node] ["cat", "dog"] [[(1 : ℝ), 2]] (by decide)⟩

/-- Claim C6: for a hierarchy of exactly one node whose node-local class count
(and child count) equals the number of original classes and whose
`new_to_old_classes` is the identity mapping, the soft-routing prediction of
each sample equals the argmax of the softmax of its raw outputs, which in turn
equals the plain argmax of its raw outputs. -/
theorem single_node_soft_reduces (node : Node) (classes : List String)
    (outputs : List (List ℝ)) (i : Nat)
    (hk : node.num_classes = classes.length)
    (hch : node.children.length = classes.length)
    (hmap : node.new_to_old_classes = (List.range classes.length).map (fun j => [j]))
    (hk0 : 0 < classes.length)
    (hi : i < outputs.length)
    (hrow : (outputs.getD i []).length = classes.length) :
    (DecisionTreeBayesianPrior_update_batch_preds [node] classes outputs).getD i 0
        = (argmaxList (softmaxRow (outputs.getD i [])) : Int)
    ∧ argmaxList (softmaxRow (outputs.getD i [])) = argmaxList (outputs.getD i []) := by
  have hne : outputs.getD i [] ≠ [] := by
    intro h
    rw [h] at hrow
    simp at hrow
    omega
  constructor
  · rw [(soft_probs_eq [node] classes outputs (by simp))]
    have hrowp := single_node_probs_row node classes outputs i hch hmap hk hi hrow
    unfold specSoftPreds
    have hlenP : i < (specSoftProbs [node] classes outputs).length := by
      simp only [specSoftProbs, List.foldl_cons, List.foldl_nil]
      simpa using hi
    rw [getD_map_list _ _ _ _ [] hlenP, hrowp]
  · exact argmax_softmax _ hne

/-- Witness for C6 on a concrete identity-mapped single node. -/
theorem single_node_soft_reduces_witness :
    exC1node.num_classes = (["cat", "dog"] : List String).length
    ∧ exC1node.children.length = (["cat", "dog"] : List String).length
    ∧ exC1node.new_to_old_classes
        = (List.range (["cat", "dog"] : List String).length).map (fun j => [j])
    ∧ 0 < (["cat", "dog"] : List String).length
    ∧ 0 < ([[(1 : ℝ), 2]] : List (List ℝ)).length
    ∧ (([[(1 : ℝ), 2]] : List (List ℝ)).getD 0 []).length = (["cat", "dog"] : List String).length
    ∧ ((DecisionTreeBayesianPrior_update_batch_preds [exC1node] ["cat", "dog"]
          [[(1 : ℝ), 2]]).getD 0 0
        = (argmaxList (softmaxRow (([[(1 : ℝ), 2]] : List (List ℝ)).getD 0 [])) : Int)
       ∧ argmaxList (softmaxRow (([[(1 : ℝ), 2]] : List (List ℝ)).getD 0 []))
           = argmaxList (([[(1 : ℝ), 2]] : List (List ℝ)).getD 0 [])) :=
  ⟨by decide, by decide, by decide, by decide, by decide, by decide,
    single_node_soft_reduces exC1node ["cat", "dog"] [[(1 : ℝ), 2]] 0
      (by decide) (by decide) (by decide) (by decide) (by decide) (by decide)⟩

/-- Claim C9: with a non-empty class list, every per-sample prediction of
`DecisionTreeBayesianPrior.traverse_tree` is a valid original-class index in
`[0, classes.length)`; the unresolved sentinel `-1` never occurs. -/
theorem soft_routing_always_resolves (nodes : List Node) (classes : List String)
    (wnid_to_output : List (String × List (List ℝ))) (n_samples i : Nat)
    (hc : classes ≠ []) (hi : i < n_samples) :
    0 ≤ (DecisionTreeBayesianPrior_traverse nodes classes wnid_to_output n_samples).getD i (-1)
    ∧ (DecisionTreeBayesianPrior_traverse nodes classes wnid_to_output n_samples).getD i (-1)
        < (classes.length : Int) := by
  obtain ⟨hlen, hfacts⟩ := bayes_traverse_facts nodes classes wnid_to_output n_samples
  obtain ⟨row, hrowlen, heq⟩ := hfacts i hi
  rw [heq]
  constructor
  · exact_mod_cast Nat.zero_le _
  · have hk0 : 0 < classes.length := List.length_pos.mpr hc
    have hne : row ≠ [] := by
      intro h
      rw [h] at hrowlen
      simp at hrowlen
      omega
    have := argmaxList_lt_length row hne
    rw [hrowlen] at this
    exact_mod_cast this

/-- Witness for C9 on a concrete empty hierarchy with one class and one sample. -/
theorem soft_routing_always_resolves_witness :
    (["cat"] : List String) ≠ []
    ∧ (0 : Nat) < 1
    ∧ (0 ≤ (DecisionTreeBayesianPrior_traverse [] ["cat"] [] 1).getD 0 (-1)
       ∧ (DecisionTreeBayesianPrior_traverse [] ["cat"] [] 1).getD 0 (-1)
           < ((["cat"] : List String).length : Int)) :=
  ⟨by decide, by decide, soft_routing_always_resolves [] ["cat"] [] 1 0 (by decide) (by decide)⟩
